import Mathlib

/-!
Verification of the `air` template engine (`internal/template/template.go`).

A shallow embedding of the template inclusion and placeholder-resolution
engine: Go strings are `List Char`, Go `filepath` paths are an
absolute-flag plus a list of segments, Go maps are association lists
(plus an explicit store model for the frame property of `MergeVariables`),
and the mutually recursive include expansion is fuel-indexed with the
`InclusionContext` threaded explicitly (mirroring Go's in-place mutation
and `defer`-based restoration).  A read log records every file the engine
opens, so "no file is read" properties are directly expressible.
-/

namespace Air

/-! ## Paths: shallow embedding of the `path/filepath` operations used -/

/-- A Go `filepath` path: whether it is rooted, and its `/`-separated
segments (empty and `"."` segments are allowed before cleaning). -/
structure GoPath where
  isAbs : Bool
  segs : List String
deriving DecidableEq, Repr

/-- The output-stack step of Go's `filepath.Clean`: segments are processed
left to right onto a reversed accumulator; `""` and `"."` are dropped,
`".."` pops a previous real segment, is dropped at the root of an absolute
path, and is kept at the head of a relative path. -/
def cleanRev (rooted : Bool) : List String → List String → List String
  | acc, [] => acc
  | acc, s :: rest =>
    if s = "" ∨ s = "." then cleanRev rooted acc rest
    else if s = ".." then
      match acc with
      | [] => cleanRev rooted (if rooted then [] else [".."]) rest
      | a :: acc' =>
        if a = ".." then cleanRev rooted (".." :: a :: acc') rest
        else cleanRev rooted acc' rest
    else cleanRev rooted (s :: acc) rest

/-- Go `filepath.Clean`. -/
def goClean (p : GoPath) : GoPath :=
  ⟨p.isAbs, (cleanRev p.isAbs [] p.segs).reverse⟩

/-- Go `filepath.Join(a, b)` for the relative-onto-base use in the source:
concatenate the segments and clean. -/
def goJoin (a b : GoPath) : GoPath :=
  goClean ⟨a.isAbs, a.segs ++ b.segs⟩

/-- Go `filepath.Abs`: an absolute path is cleaned, a relative one is joined
onto the working directory `cwd` (given as the segments of an absolute
path). -/
def goAbs (cwd : List String) (p : GoPath) : GoPath :=
  if p.isAbs then goClean p else goJoin ⟨true, cwd⟩ p

/-- Go `filepath.Dir`: drop the final element and clean. -/
def goDir (p : GoPath) : GoPath :=
  goClean ⟨p.isAbs, p.segs.dropLast⟩

/-- Strip the longest common prefix of two segment lists
(the core of `filepath.Rel` for two rooted, cleaned paths). -/
def stripCommon : List String → List String → List String × List String
  | b :: bs, t :: ts =>
    if b = t then stripCommon bs ts else (b :: bs, t :: ts)
  | bs, ts => (bs, ts)

/-- Go `filepath.Rel(base, targ)` on cleaned rooted segment lists: one `".."`
per unmatched base segment, then the unmatched target segments. -/
def goRelSegs (base targ : List String) : List String :=
  let p := stripCommon base targ
  List.replicate p.1.length ("..") ++ p.2

/-- Parse the raw reference string captured by the include regex into a
path: rooted iff it starts with `/`, segments split on `/`. -/
def splitSegsAux : List Char → List Char → List String
  | cur, [] => [String.mk cur.reverse]
  | cur, c :: rest =>
    if c = '/' then String.mk cur.reverse :: splitSegsAux [] rest
    else splitSegsAux (c :: cur) rest

def parsePath (cs : List Char) : GoPath :=
  ⟨cs.head? = some '/', splitSegsAux [] cs⟩

/-- Source `ResolveAbsolutePath`: join a relative reference onto
the base directory, clean, then make absolute. -/
def ResolveAbsolutePath (cwd : List String) (path baseDir : GoPath) : GoPath :=
  let p := if path.isAbs then path else goJoin baseDir path
  goAbs cwd (goClean p)

/-! ## The include-directive scanner (regex `\{\{include\s+"([^"]+)"\}\}`) -/

/-- Go's `\s` character class (RE2): space, tab, newline, form feed,
carriage return. -/
def isWsChar (c : Char) : Bool :=
  c = ' ' || c = '\t' || c = '\n' || c = '\r' || c = Char.ofNat 12

def includeKw : List Char := ['{', '{', 'i', 'n', 'c', 'l', 'u', 'd', 'e']

/-- Try to match the include directive at the head of `s`; on success
return the captured path characters and the text after the directive. -/
def parseIncludeAt (s : List Char) : Option (List Char × List Char) :=
  if s.take 9 = includeKw then
    let s1 := s.drop 9
    let ws := s1.takeWhile isWsChar
    if ws = [] then none
    else
      match s1.drop ws.length with
      | c :: s2 =>
        if c = '"' then
          let path := s2.takeWhile (fun ch => ch ≠ '"')
          if path = [] then none
          else
            match s2.drop path.length with
            | q :: b1 :: b2 :: s3 =>
              if q = '"' ∧ b1 = '\x7d' ∧ b2 = '\x7d' then some (path, s3) else none
            | _ => none
        else none
      | [] => none
  else none

/-- Leftmost match of the include directive: the text before the match,
the captured path, and the text after the match. -/
def findInclude : List Char → Option (List Char × List Char × List Char)
  | [] => none
  | c :: rest =>
    match parseIncludeAt (c :: rest) with
    | some (path, after) => some ([], path, after)
    | none =>
      match findInclude rest with
      | some (pre, path, after) => some (c :: pre, path, after)
      | none => none

/-! ## The inclusion engine -/

/-- The error kinds the engine produces (`fuelOut` is an artifact of the
fuel-indexed embedding and never occurs with sufficient fuel). -/
inductive TErr where
  | fuelOut
  | pathEscape (p : GoPath)
  | circular (p : GoPath)
  | fileRead (p : GoPath)
deriving DecidableEq, Repr

/-- Source `validatePathSecurity`: the project root is `filepath.Abs(".")`
(the cleaned working directory); the check fails iff the path of the
target relative to the root starts with a parent-directory segment
(Go: `rel == ".." || strings.HasPrefix(rel, "../")`). -/
def validatePathSecurity (cwd : List String) (absPath : GoPath) : Except TErr Unit :=
  let root := (cleanRev true [] cwd).reverse
  let rel := goRelSegs root absPath.segs
  if rel.head? = some ("..") then .error (.pathEscape absPath) else .ok ()

/-- Source `InclusionContext`: the set of canonical absolute paths currently
being expanded on the active recursion path, and the base directory for
resolving the next relative include. -/
structure InclusionContext where
  Visited : List GoPath
  BaseDir : GoPath
deriving DecidableEq, Repr

def NewInclusionContext (initialFile : GoPath) : InclusionContext :=
  ⟨[], goDir initialFile⟩

/-- Source `checkCircular`: fail iff the path is already in the visited set. -/
def checkCircular (ctx : InclusionContext) (absPath : GoPath) : Except TErr Unit :=
  if absPath ∈ ctx.Visited then .error (.circular absPath) else .ok ()

/-- The filesystem: canonical absolute paths to file contents. -/
abbrev Fs := List (GoPath × List Char)

def lookupFs : Fs → GoPath → Option (List Char)
  | [], _ => none
  | (q, c) :: rest, p => if p = q then some c else lookupFs rest p

/-- Result of one expansion call: the outcome, the context state on
return (mirroring Go's in-place mutation), and the log of files the call
attempted to read, in order. -/
abbrev IncResult := Except TErr (List Char) × InclusionContext × List GoPath

/-- Source `processIncludeFile`, parameterized by the recursive expansion
function: mark the path visited, read the file (logging the read), expand
its contents with `BaseDir` set to the file's directory, and
unconditionally restore `Visited` and `BaseDir` on exit (the two `defer`
statements), whether or not the expansion succeeded. -/
def processIncludeFileWith (recur : List Char → InclusionContext → IncResult)
    (fs : Fs) (absPath : GoPath) (ctx : InclusionContext) : IncResult :=
  let v1 := absPath :: ctx.Visited
  match lookupFs fs absPath with
  | none => (.error (.fileRead absPath), ⟨v1.erase absPath, ctx.BaseDir⟩, [absPath])
  | some contents =>
    match recur contents ⟨v1, goDir absPath⟩ with
    | (res, ctx2, reads) =>
      (res, ⟨ctx2.Visited.erase absPath, ctx.BaseDir⟩, absPath :: reads)

/-- Source `ProcessIncludes`: scan for the first directive; if none, emit the
rest unchanged; otherwise resolve the reference, run the security check,
run the cycle check, expand the included file, splice its expansion after
the text before the directive, and continue scanning the original text
just after the directive.  Any error aborts the whole call.  `fuel`
strictly decreases on every recursive call. -/
def ProcessIncludes (cwd : List String) (fs : Fs) :
    Nat → List Char → InclusionContext → IncResult
  | 0, _, ctx => (.error .fuelOut, ctx, [])
  | fuel + 1, content, ctx =>
    match findInclude content with
    | none => (.ok content, ctx, [])
    | some (pre, pathChars, rest) =>
      let absPath := ResolveAbsolutePath cwd (parsePath pathChars) ctx.BaseDir
      match validatePathSecurity cwd absPath with
      | .error e => (.error e, ctx, [])
      | .ok _ =>
        match checkCircular ctx absPath with
        | .error e => (.error e, ctx, [])
        | .ok _ =>
          match processIncludeFileWith (ProcessIncludes cwd fs fuel) fs absPath ctx with
          | (.error e, ctx1, reads) => (.error e, ctx1, reads)
          | (.ok exp, ctx1, reads) =>
            match ProcessIncludes cwd fs fuel rest ctx1 with
            | (.error e, ctx2, reads2) => (.error e, ctx2, reads ++ reads2)
            | (.ok tail, ctx2, reads2) => (.ok (pre ++ exp ++ tail), ctx2, reads ++ reads2)

/-! ## The placeholder scanner
(regex `\{\{([a-zA-Z_][a-zA-Z0-9_]*?)(?:\|([^\}]*))?\}\}`) -/

def isWordStart (c : Char) : Bool :=
  ('a' ≤ c && c ≤ 'z') || ('A' ≤ c && c ≤ 'Z') || c = '_'

def isWordChar (c : Char) : Bool :=
  isWordStart c || ('0' ≤ c && c ≤ '9')

/-- Expect two closing braces; return the rest. -/
def expectRBraces : List Char → Option (List Char)
  | b1 :: b2 :: s => if b1 = '\x7d' ∧ b2 = '\x7d' then some s else none
  | _ => none

/-- After the placeholder name: either `|DEFAULT\}\}` (capture group 2
participates, possibly empty) or `\}\}` (no default). -/
def phTail (s : List Char) : Option (Option String × List Char) :=
  match s with
  | [] => none
  | c :: s3 =>
    if c = '|' then
      let dflt := s3.takeWhile (fun ch => ch ≠ '\x7d')
      match expectRBraces (s3.drop dflt.length) with
      | some s4 => some (some (String.mk dflt), s4)
      | none => none
    else
      match expectRBraces s with
      | some s4 => some (none, s4)
      | none => none

/-- Try to match a placeholder at the head of `s`: two open braces, a name
(`[A-Za-z_][A-Za-z0-9_]*`), then `phTail`.  Returns the name, the
captured default (an empty default after the pipe gives `some ""`, indistinguishable
in Go from a missing group in the string comparison the code performs),
and the rest of the text. -/
def parsePlaceholderAt : List Char → Option (String × Option String × List Char)
  | c1 :: c2 :: c :: rest =>
    if c1 = '\x7b' ∧ c2 = '\x7b' ∧ isWordStart c then
      let nm := rest.takeWhile isWordChar
      match phTail (rest.drop nm.length) with
      | some (dflt, after) => some (String.mk (c :: nm), dflt, after)
      | none => none
    else none
  | _ => none

/-- The literal text of a matched placeholder, used when the code leaves
the match in place. -/
def phText (name : String) (dflt : Option String) : List Char :=
  '\x7b' :: '\x7b' :: name.toList ++
    (match dflt with | some d => '|' :: d.toList | none => []) ++ ['\x7d', '\x7d']

/-- Go map read (`variables[varName]`): association-list lookup. -/
def lookupVar : List (String × String) → String → Option String
  | [], _ => none
  | (k, v) :: rest, n => if n = k then some v else lookupVar rest n

/-- The `ReplaceAllStringFunc` pass: at each position try to match a
placeholder; on a match, emit the mapped value if the name is bound, else
the default if it is non-empty (the code's `submatches[2] != ""` test),
else leave the match in place and record the name as missing; then
continue after the match.  `fuel` at least `length + 1` always suffices
since every step consumes at least one character. -/
def replaceScanF (vars : List (String × String)) :
    Nat → List Char → List Char × List String
  | 0, s => (s, [])
  | _ + 1, [] => ([], [])
  | fuel + 1, c :: rest =>
    match parsePlaceholderAt (c :: rest) with
    | some (name, dflt, after) =>
      let t := replaceScanF vars fuel after
      match lookupVar vars name with
      | some v => (v.toList ++ t.1, t.2)
      | none =>
        match dflt with
        | some d =>
          if d = "" then (phText name dflt ++ t.1, name :: t.2)
          else (d.toList ++ t.1, t.2)
        | none => (phText name dflt ++ t.1, name :: t.2)
    | none =>
      let t := replaceScanF vars fuel rest
      (c :: t.1, t.2)

/-- The list of placeholder occurrences (name, captured default) in the
text, scanned with the same non-overlapping leftmost discipline. -/
def occListF : Nat → List Char → List (String × Option String)
  | 0, _ => []
  | _ + 1, [] => []
  | fuel + 1, c :: rest =>
    match parsePlaceholderAt (c :: rest) with
    | some (name, dflt, after) => (name, dflt) :: occListF fuel after
    | none => occListF fuel rest

/-- An occurrence is unresolvable when its name is unbound and it has no
non-empty default (the code's missing-variable condition). -/
def unresolvable (vars : List (String × String)) (nd : String × Option String) : Bool :=
  (lookupVar vars nd.1).isNone &&
    (match nd.2 with | none => true | some d => d = "")

/-- Lexicographic comparison of character lists by code point (the order
`sort.Strings` uses, restricted to the strings the engine handles). -/
def charsLe : List Char → List Char → Bool
  | [], _ => true
  | _ :: _, [] => false
  | a :: as, b :: bs =>
    if a < b then true else if b < a then false else charsLe as bs

def strLe (a b : String) : Bool := charsLe a.toList b.toList

/-- Go `sort.Strings`. -/
def sortStrings (l : List String) : List String :=
  List.insertionSort (fun a b => strLe a b = true) l

/-- Source `ReplacePlaceholders`: run the replacement pass; if any name was
recorded missing, fail with the sorted list of the distinct missing
names, otherwise return the substituted text. -/
def ReplacePlaceholders (content : List Char) (vars : List (String × String)) :
    Except (List String) (List Char) :=
  let t := replaceScanF vars (content.length + 1) content
  if t.2 = [] then .ok t.1 else .error (sortStrings t.2.dedup)

/-! ## Variable merging -/

/-- Go map write `m[k] = v` on the association-list model: replace the
binding if present, else append. -/
def mapSet : List (String × String) → String → String → List (String × String)
  | [], k, v => [(k, v)]
  | (k', v') :: rest, k, v =>
    if k' = k then (k, v) :: rest else (k', v') :: mapSet rest k v

/-- Source `MergeVariables`: fold every source, in order, into a fresh map. -/
def MergeVariables (sources : List (List (String × String))) : List (String × String) :=
  sources.foldl (fun result src => src.foldl (fun r kv => mapSet r kv.1 kv.2) result) []

/-- The intended reading of the merge: the value of `k` is the value from
the last source that binds `k`. -/
def lastWin (sources : List (List (String × String))) (k : String) : Option String :=
  sources.foldl
    (fun acc src => match lookupVar src k with | some v => some v | none => acc) none

/-! ### A store model for the frame property of `MergeVariables`
Go maps are heap references; to state that `MergeVariables` writes only
to a map it allocated itself, the maps live in an explicit store indexed
by `Nat` references. -/

structure Store where
  next : Nat
  data : Nat → List (String × String)

def storeWrite (st : Store) (r : Nat) (m : List (String × String)) : Store :=
  ⟨st.next, fun i => if i = r then m else st.data i⟩

/-- Source `MergeVariables` on the store: allocate a fresh empty map, then for
each source reference, copy each of its entries into the result map with
a map write. -/
def MergeVariablesStore (srcs : List Nat) (st : Store) : Nat × Store :=
  let r := st.next
  let st1 : Store := ⟨st.next + 1, fun i => if i = r then [] else st.data i⟩
  let st2 := srcs.foldl
    (fun acc src =>
      (acc.data src).foldl
        (fun acc2 kv => storeWrite acc2 r (mapSet (acc2.data r) kv.1 kv.2)) acc)
    st1
  (r, st2)

/-! ## Order facts for `sortStrings` -/

theorem charsLe_total : ∀ x y : List Char, charsLe x y = true ∨ charsLe y x = true
  | [], _ => .inl rfl
  | _ :: _, [] => .inr rfl
  | a :: as, b :: bs => by
    rcases lt_trichotomy a b with h | h | h
    · left; simp [charsLe, h]
    · subst h
      rcases charsLe_total as bs with ih | ih
      · left; simpa [charsLe] using ih
      · right; simpa [charsLe] using ih
    · right; simp [charsLe, h]

theorem charsLe_trans :
    ∀ x y z : List Char, charsLe x y = true → charsLe y z = true → charsLe x z = true
  | [], _, _, _, _ => rfl
  | _ :: _, [], _, h, _ => by simp [charsLe] at h
  | _ :: _, _ :: _, [], _, h2 => by simp [charsLe] at h2
  | a :: as, b :: bs, c :: cs, h1, h2 => by
    simp only [charsLe] at h1 h2 ⊢
    rcases lt_trichotomy a b with hab | hab | hab
    · rcases lt_trichotomy b c with hbc | hbc | hbc
      · simp [lt_trans hab hbc]
      · subst hbc; simp [hab]
      · rw [if_neg (asymm hbc), if_pos hbc] at h2; exact absurd h2 (by simp)
    · subst hab
      rcases lt_trichotomy a c with hac | hac | hac
      · simp [hac]
      · subst hac
        simp only [lt_irrefl, if_neg, ite_false] at h1 h2 ⊢
        exact charsLe_trans as bs cs h1 h2
      · rw [if_neg (asymm hac), if_pos hac] at h2; exact absurd h2 (by simp)
    · rw [if_neg (asymm hab), if_pos hab] at h1; exact absurd h1 (by simp)

instance : IsTotal String (fun a b => strLe a b = true) :=
  ⟨fun a b => charsLe_total a.toList b.toList⟩

instance : IsTrans String (fun a b => strLe a b = true) :=
  ⟨fun a b c => charsLe_trans a.toList b.toList c.toList⟩

/-! ## The missing-name accumulator matches the occurrence list -/

/-- The names collected as missing by the replacement pass are exactly
(the first components of) the unresolvable placeholder occurrences, in
textual order with multiplicity. -/
theorem replaceScanF_missing (vars : List (String × String)) :
    ∀ fuel s, (replaceScanF vars fuel s).2 =
      ((occListF fuel s).filter (unresolvable vars)).map Prod.fst := by
  intro fuel
  induction fuel with
  | zero => intro s; rfl
  | succ n ih =>
    intro s
    cases s with
    | nil => rfl
    | cons c rest =>
      simp only [replaceScanF, occListF]
      cases hp : parsePlaceholderAt (c :: rest) with
      | none => simpa using ih rest
      | some t =>
        obtain ⟨name, dflt, after⟩ := t
        simp only
        cases hl : lookupVar vars name with
        | some v => simp [List.filter, unresolvable, hl, ih after]
        | none =>
          cases dflt with
          | none => simp [List.filter, unresolvable, hl, ih after]
          | some d =>
            by_cases hd : d = "" <;>
              simp [List.filter, unresolvable, hl, hd, ih after]

/-! ## Context restoration for the inclusion engine -/

/-- Lemma: `processIncludeFile` restores the context it was given — `Visited`
loses exactly the path added on entry and `BaseDir` is reset — no matter
whether the read or the recursive expansion succeeded or failed,
provided the recursive expansion itself restores its context. -/
theorem processIncludeFileWith_ctx (recur : List Char → InclusionContext → IncResult)
    (hrec : ∀ c x, (recur c x).2.1 = x) (fs : Fs) (absPath : GoPath)
    (ctx : InclusionContext) :
    (processIncludeFileWith recur fs absPath ctx).2.1 = ctx := by
  unfold processIncludeFileWith
  cases h : lookupFs fs absPath with
  | none => simp
  | some contents =>
    have h2 := hrec contents ⟨absPath :: ctx.Visited, goDir absPath⟩
    rcases hq : recur contents ⟨absPath :: ctx.Visited, goDir absPath⟩ with ⟨res, ctx2, reads⟩
    rw [hq] at h2
    simp only at h2
    subst h2
    simp [hq]

/-- Lemma: `ProcessIncludes` returns the context unchanged — the visited set and
base directory are restored on exit on every path, success or failure. -/
theorem processIncludes_ctx (cwd : List String) (fs : Fs) :
    ∀ fuel content ctx, (ProcessIncludes cwd fs fuel content ctx).2.1 = ctx := by
  intro fuel
  induction fuel with
  | zero => intro content ctx; rfl
  | succ n ih =>
    intro content ctx
    have hfile := processIncludeFileWith_ctx (ProcessIncludes cwd fs n)
      (fun c x => ih c x) fs
    unfold ProcessIncludes
    cases hf : findInclude content with
    | none => rfl
    | some t =>
      obtain ⟨pre, pc, rest⟩ := t
      simp only
      cases hs : validatePathSecurity cwd
          (ResolveAbsolutePath cwd (parsePath pc) ctx.BaseDir) with
      | error e => rfl
      | ok u =>
        cases hc : checkCircular ctx (ResolveAbsolutePath cwd (parsePath pc) ctx.BaseDir) with
        | error e => rfl
        | ok u2 =>
          rcases hq : processIncludeFileWith (ProcessIncludes cwd fs n) fs
              (ResolveAbsolutePath cwd (parsePath pc) ctx.BaseDir) ctx with ⟨res, ctx1, reads⟩
          have hctx1 : ctx1 = ctx := by
            have := hfile (ResolveAbsolutePath cwd (parsePath pc) ctx.BaseDir) ctx
            rw [hq] at this
            exact this
          cases res with
          | error e => simpa using hctx1
          | ok exp =>
            simp only
            rcases hr : ProcessIncludes cwd fs n rest ctx1 with ⟨res2, ctx2, reads2⟩
            have hctx2 : ctx2 = ctx1 := by
              have := ih rest ctx1
              rw [hr] at this
              exact this
            cases res2 with
            | error e => simp [hctx2, hctx1]
            | ok tail => simp [hctx2, hctx1]

/-! ## Facts about `stripCommon` (for the security-check characterization) -/

theorem stripCommon_fst_eq_nil_iff : ∀ a b : List String, (stripCommon a b).1 = [] ↔ a <+: b
  | [], b => by simp [stripCommon]
  | a :: as, [] => by simp [stripCommon]
  | a :: as, b :: bs => by
    by_cases h : a = b
    · subst h
      simpa [stripCommon] using stripCommon_fst_eq_nil_iff as bs
    · simp [stripCommon, h, List.cons_prefix_cons]

theorem stripCommon_snd_mem : ∀ a b : List String, ∀ x ∈ (stripCommon a b).2, x ∈ b
  | [], b => by simp [stripCommon]
  | a :: as, [] => by simp [stripCommon]
  | a :: as, b :: bs => by
    by_cases h : a = b
    · subst h
      intro x hx
      exact List.mem_cons_of_mem _
        (stripCommon_snd_mem as bs x (by simpa [stripCommon] using hx))
    · intro x hx
      simpa [stripCommon, h] using hx

/-! ## Concrete fixtures -/

/-- The project root directory `/r`. -/
def rDir : GoPath := ⟨true, ["r"]⟩

def aP : GoPath := ⟨true, ["r", "a"]⟩
def bP : GoPath := ⟨true, ["r", "b"]⟩
def cP : GoPath := ⟨true, ["r", "c"]⟩
def dP : GoPath := ⟨true, ["r", "d"]⟩

/-- Expansion context for a top-level file directly under `/r`. -/
def ctx0 : InclusionContext := NewInclusionContext aP

/-- Diamond: `a` includes `b` and `c`; `b` and `c` both include `d`. -/
def diamondFs : Fs :=
  [(bP, "\x7b\x7binclude \"d\"\x7d\x7d".toList), (cP, "\x7b\x7binclude \"d\"\x7d\x7d".toList), (dP, "D".toList)]

def diamondA : List Char := "\x7b\x7binclude \"b\"\x7d\x7d\x7b\x7binclude \"c\"\x7d\x7d".toList

/-- Cycle: `a` includes `b` and `b` includes `a`. -/
def cycleFs : Fs := [(aP, "\x7b\x7binclude \"b\"\x7d\x7d".toList), (bP, "\x7b\x7binclude \"a\"\x7d\x7d".toList)]

/-- The contents of file `a` in the cyclic filesystem. -/
def cycleA : List Char := "\x7b\x7binclude \"b\"\x7d\x7d".toList

/-- Working directory for the escape scenario: `/h/u/proj`. -/
def eCwd : List String := ["h", "u", "proj"]

def eCtx : InclusionContext := ⟨[], ⟨true, eCwd⟩⟩

/-- Path `/h/u/secret`, outside the `/h/u/proj` root. -/
def secretP : GoPath := ⟨true, ["h", "u", "secret"]⟩

def eFs : Fs := [(secretP, "S".toList)]

/-- Filesystem for the no-rescan scenario: file `b` contains the literal
text `{{include` (no complete directive), and file `a` exists with
recognizable contents. -/
def nrFs : Fs := [(bP, "\x7b\x7binclude".toList), (aP, "AAA".toList)]

/-- Content `{{include "b"}} "a"}}`: after splicing `b`'s expansion the emitted
output reads `{{include "a"}}`, a complete directive for `a` — which must
nevertheless not be expanded. -/
def nrContent : List Char := "\x7b\x7binclude \"b\"\x7d\x7d \"a\"\x7d\x7d".toList

/-! ## The claims -/

/-- C1 — At any point during a top-level expansion the visited set
equals exactly the canonical absolute paths on the active recursion path:
a path is added on entry to a file's expansion (`processIncludeFileWith`
hands the recursive call `absPath :: ctx.Visited` by definition) and the
context — visited set and base directory — is restored on exit on every
path, success or failure (first conjunct).  Consequently two sibling
branches that include the same non-ancestor file both succeed (diamond,
second conjunct, expanding to `DD`), while a back-edge to an ancestor is
rejected (third conjunct). -/
theorem c1_visited_is_recursion_path :
    (∀ cwd fs fuel content ctx, (ProcessIncludes cwd fs fuel content ctx).2.1 = ctx)
    ∧ ProcessIncludes ["r"] diamondFs 12 diamondA ctx0 =
        (.ok ("DD".toList), ctx0, [bP, dP, cP, dP])
    ∧ ProcessIncludes ["r"] cycleFs 12 cycleA ctx0 =
        (.error (.circular bP), ctx0, [bP, aP]) :=
  ⟨processIncludes_ctx, by rfl, by rfl⟩

/-- C2 — When the first directive of the text being scanned resolves
to a path already on the recursion stack, `ProcessIncludes` returns a
circular-include error naming that path, reads no file at all in that
call (empty read log), and leaves the context untouched (first conjunct:
the result does not depend on `fs`, so no file beyond the point of
detection is read).  Second conjunct: for file `a` including `b` and `b`
including `a`, expanding `a`'s contents yields a circular-include error —
naming `b`, which is on the cycle — after reading only `b` and `a`. -/
theorem c2_circular_include_error :
    (∀ cwd fs fuel content ctx pre pc rest,
       findInclude content = some (pre, pc, rest) →
       validatePathSecurity cwd (ResolveAbsolutePath cwd (parsePath pc) ctx.BaseDir) =
         .ok () →
       ResolveAbsolutePath cwd (parsePath pc) ctx.BaseDir ∈ ctx.Visited →
       ProcessIncludes cwd fs (fuel + 1) content ctx =
         (.error (.circular (ResolveAbsolutePath cwd (parsePath pc) ctx.BaseDir)), ctx, []))
    ∧ ProcessIncludes ["r"] cycleFs 12 cycleA ctx0 =
        (.error (.circular bP), ctx0, [bP, aP]) := by
  constructor
  · intro cwd fs fuel content ctx pre pc rest hf hs hmem
    unfold ProcessIncludes
    rw [hf]
    simp only [hs, checkCircular, if_pos hmem]
  · rfl

/-- C2 witness — a concrete instance of the general conjunct: with
`/r/b` already on the recursion stack, expanding text whose first
directive is `{{include "b"}}` fails with a circular-include error for
`/r/b`, with an empty filesystem and an empty read log. -/
theorem c2_circular_include_error_witness :
    ProcessIncludes ["r"] [] 5 ("\x7b\x7binclude \"b\"\x7d\x7d".toList) ⟨[bP], rDir⟩ =
      (.error (.circular bP), ⟨[bP], rDir⟩, []) :=
  c2_circular_include_error.1 ["r"] [] 4 ("\x7b\x7binclude \"b\"\x7d\x7d".toList) ⟨[bP], rDir⟩
    [] "b".toList [] (by rfl) (by rfl) (by decide)

/-- C3 — An include reference whose canonical absolute resolution
fails the security check aborts the expansion with that (path-escape)
error before any file is read in that call: empty read log, context
untouched, result independent of `fs` (first conjunct).  The check runs
on the canonicalized path: for any path with no remaining `..` segment
(true of every cleaned absolute path), it succeeds iff the cleaned
working directory is a prefix of the path's segments, i.e. fails exactly
when the path relative to the project root starts with a
parent-directory segment (second conjunct).  Third conjunct: concrete
`{{include "../secret"}}` against root `/h/u/proj` fails with a
path-escape error for `/h/u/secret` and performs no read, although the
file exists in the filesystem. -/
theorem c3_path_escape_before_read :
    (∀ cwd fs fuel content ctx pre pc rest e,
       findInclude content = some (pre, pc, rest) →
       validatePathSecurity cwd (ResolveAbsolutePath cwd (parsePath pc) ctx.BaseDir) =
         .error e →
       ProcessIncludes cwd fs (fuel + 1) content ctx = (.error e, ctx, []))
    ∧ (∀ cwd p, ".." ∉ p.segs →
        (validatePathSecurity cwd p = .ok () ↔ (cleanRev true [] cwd).reverse <+: p.segs))
    ∧ ProcessIncludes eCwd eFs 12 ("\x7b\x7binclude \"../secret\"\x7d\x7d".toList) eCtx =
        (.error (.pathEscape secretP), eCtx, []) := by
  refine ⟨?_, ?_, by rfl⟩
  · intro cwd fs fuel content ctx pre pc rest e hf hs
    unfold ProcessIncludes
    rw [hf]
    simp only [hs]
  · intro cwd p hno
    unfold validatePathSecurity goRelSegs
    rcases hsc : stripCommon ((cleanRev true [] cwd).reverse) p.segs with ⟨b1, t1⟩
    simp only [hsc]
    constructor
    · intro h
      rw [← stripCommon_fst_eq_nil_iff ((cleanRev true [] cwd).reverse) p.segs, hsc]
      cases b1 with
      | nil => rfl
      | cons y ys => simp [List.replicate] at h
    · intro hpre
      have hb : b1 = [] := by
        have := (stripCommon_fst_eq_nil_iff ((cleanRev true [] cwd).reverse) p.segs).mpr hpre
        rw [hsc] at this
        exact this
      subst hb
      cases t1 with
      | nil => rfl
      | cons y ys =>
        have hy : y ∈ p.segs := by
          apply stripCommon_snd_mem ((cleanRev true [] cwd).reverse) p.segs
          rw [hsc]
          exact List.mem_cons_self y ys
        have hyne : y ≠ ".." := fun he => hno (he ▸ hy)
        simp [List.replicate, hyne]

/-- C3 witness — concrete instances of the two general conjuncts:
expanding `{{include "../secret"}}` under root `/h/u/proj` over an empty
filesystem fails with a path-escape error for `/h/u/secret` and reads
nothing; and the security check on `/h/u/secret` is equivalent to the
root being a prefix of its segments (it is not). -/
theorem c3_path_escape_before_read_witness :
    ProcessIncludes eCwd [] 5 ("\x7b\x7binclude \"../secret\"\x7d\x7d".toList) eCtx =
      (.error (.pathEscape secretP), eCtx, [])
    ∧ (validatePathSecurity eCwd secretP = .ok () ↔
        (cleanRev true [] eCwd).reverse <+: secretP.segs) :=
  ⟨c3_path_escape_before_read.1 eCwd [] 4 ("\x7b\x7binclude \"../secret\"\x7d\x7d".toList) eCtx
      [] "../secret".toList [] (.pathEscape secretP) (by rfl) (by rfl),
   c3_path_escape_before_read.2.1 eCwd secretP (by decide)⟩

/-- C6 — When the first directive of the text is successfully
expanded, the call returns the text before the directive, then the
expansion, then whatever scanning the text *after the directive in the
original input* produces: the scan position moves past the directive and
the spliced expansion is never rescanned at this level (first conjunct —
the continuation runs on `rest`, not on the splice).  Second conjunct: a
file `b` whose contents are the literal text `{{include` spliced before
the remaining text ` "a"}}` produces the output `{{include "a"}}` — a
well-formed directive for the existing file `a` — yet only `b` is ever
read: the splice is not rescanned. -/
theorem c6_splice_and_resume_after_directive :
    (∀ cwd fs fuel content ctx pre pc rest exp ctx1 rds,
       findInclude content = some (pre, pc, rest) →
       validatePathSecurity cwd (ResolveAbsolutePath cwd (parsePath pc) ctx.BaseDir) =
         .ok () →
       checkCircular ctx (ResolveAbsolutePath cwd (parsePath pc) ctx.BaseDir) = .ok () →
       processIncludeFileWith (ProcessIncludes cwd fs fuel) fs
         (ResolveAbsolutePath cwd (parsePath pc) ctx.BaseDir) ctx = (.ok exp, ctx1, rds) →
       ProcessIncludes cwd fs (fuel + 1) content ctx =
         (match ProcessIncludes cwd fs fuel rest ctx1 with
          | (.error e, ctx2, rds2) => (.error e, ctx2, rds ++ rds2)
          | (.ok tail, ctx2, rds2) => (.ok (pre ++ exp ++ tail), ctx2, rds ++ rds2)))
    ∧ ProcessIncludes ["r"] nrFs 12 nrContent ctx0 =
        (.ok ("\x7b\x7binclude \"a\"\x7d\x7d".toList), ctx0, [bP]) := by
  constructor
  · intro cwd fs fuel content ctx pre pc rest exp ctx1 rds hf hs hc hp
    conv_lhs => unfold ProcessIncludes
    rw [hf]
    simp only [hs, hc, hp]
  · rfl

/-- C6 witness — the general conjunct instantiated on the no-rescan
scenario: with `{{include "b"}}` matched and `b`'s contents `{{include`
expanded to themselves, the call's value is determined by scanning the
original remainder ` "a"}}`. -/
theorem c6_splice_and_resume_after_directive_witness :
    ProcessIncludes ["r"] nrFs 5 nrContent ctx0 =
      (match ProcessIncludes ["r"] nrFs 4 (" \"a\"\x7d\x7d".toList) ctx0 with
       | (.error e, ctx2, rds2) => (.error e, ctx2, [bP] ++ rds2)
       | (.ok tail, ctx2, rds2) =>
         (.ok ([] ++ "\x7b\x7binclude".toList ++ tail), ctx2, [bP] ++ rds2)) :=
  c6_splice_and_resume_after_directive.1 ["r"] nrFs 4 nrContent ctx0
    [] ("b".toList) (" \"a\"\x7d\x7d".toList) ("\x7b\x7binclude".toList) ctx0 [bP]
    (by rfl) (by rfl) (by rfl) (by rfl)

theorem takeWhile_append_all {α} (p : α → Bool) :
    ∀ l r : List α, (∀ x ∈ l, p x = true) →
      List.takeWhile p (l ++ r) = l ++ List.takeWhile p r
  | [], _, _ => rfl
  | a :: l, r, h => by
    have ha := h a (List.mem_cons_self a l)
    simp only [List.cons_append, List.takeWhile_cons, ha, ite_true]
    rw [takeWhile_append_all p l r (fun x hx => h x (List.mem_cons_of_mem a hx))]

/-- C4 counterexample — the claim is false on the code: with an empty
variable mapping, `a{{x|}}b` — whose sole placeholder occurrence carries
an explicit *empty* default (the occurrence list records `("x", some "")`,
the pipe is present) — does not resolve to `ab` but fails with `x`
reported missing, because `ReplacePlaceholders` tests
`submatches[2] != ""`, i.e. the non-emptiness of the default text, not
the presence of the pipe. -/
theorem c4_empty_default_counterexample :
    ReplacePlaceholders ("a\x7b\x7bx|\x7d\x7db".toList) [] = .error ["x"]
    ∧ occListF ("a\x7b\x7bx|\x7d\x7db".toList.length + 1) "a\x7b\x7bx|\x7d\x7db".toList = [("x", some (""))] :=
  ⟨by rfl, by rfl⟩

/-- The match of a placeholder with a well-formed name followed by
`|}}`: the captured default participates and is empty. -/
theorem parsePlaceholderAt_empty_default (c : Char) (cs : List Char)
    (h1 : isWordStart c = true) (h2 : ∀ ch ∈ cs, isWordChar ch = true) :
    parsePlaceholderAt ('{' :: '{' :: c :: (cs ++ ['|', '}', '}'])) =
      some (String.mk (c :: cs), some (""), []) := by
  have hnm : (cs ++ ['|', '}', '}']).takeWhile isWordChar = cs := by
    rw [takeWhile_append_all isWordChar cs _ h2]
    rw [show List.takeWhile isWordChar ['|', '}', '}'] = [] from rfl]
    simp
  simp [parsePlaceholderAt, h1, hnm, List.drop_left, phTail, expectRBraces,
    List.takeWhile]

/-- C4 amended — a placeholder `{{name|}}` with an explicit empty
default whose name is absent from the mapping is *recorded as missing*
(and the text is not resolved): the non-emptiness of the default text,
not the presence of the pipe character, marks the placeholder as having
a default. -/
theorem c4_amended_empty_default_is_missing (vars : List (String × String))
    (c : Char) (cs : List Char) (h1 : isWordStart c = true)
    (h2 : ∀ ch ∈ cs, isWordChar ch = true)
    (h3 : lookupVar vars (String.mk (c :: cs)) = none) :
    ReplacePlaceholders ('{' :: '{' :: c :: (cs ++ ['|', '}', '}'])) vars =
      .error [String.mk (c :: cs)] := by
  have hparse := parsePlaceholderAt_empty_default c cs h1 h2
  have hscan : ∀ fuel, replaceScanF vars (fuel + 2) ('{' :: '{' :: c :: (cs ++ ['|', '}', '}'])) =
      (phText (String.mk (c :: cs)) (some ("")) ++ [], [String.mk (c :: cs)]) := by
    intro fuel
    simp only [replaceScanF, hparse, h3]
    simp
  have hlen : ('{' :: '{' :: c :: (cs ++ ['|', '}', '}'])).length + 1 = (cs.length + 5) + 2 := by
    simp only [List.length_cons, List.length_append, List.length_nil]
  simp only [ReplacePlaceholders, hlen, hscan]
  simp [sortStrings, List.dedup]

/-- C4 amended witness — `{{x|}}` with no variables fails with
missing name `x`. -/
theorem c4_amended_empty_default_is_missing_witness :
    ReplacePlaceholders ('{' :: '{' :: 'x' :: ([] ++ ['|', '}', '}'])) [] = .error ["x"] :=
  c4_amended_empty_default_is_missing [] 'x' [] (by rfl) (by simp) (by rfl)

/-- C5 counterexample — the claim is false on the code: in
`{{x|}}{{y}}` with an empty mapping, the only placeholder name with
neither a value nor a default is `y` (the occurrence list shows `x`
carries an explicit empty default, `("x", some "")`), so the claim
requires the error to enumerate exactly `["y"]`; the code instead
returns `["x", "y"]`, because an empty default is treated as no
default. -/
theorem c5_missing_enumeration_counterexample :
    ReplacePlaceholders ("\x7b\x7bx|\x7d\x7d\x7b\x7by\x7d\x7d".toList) [] = .error ["x", "y"]
    ∧ occListF ("\x7b\x7bx|\x7d\x7d\x7b\x7by\x7d\x7d".toList.length + 1) "\x7b\x7bx|\x7d\x7d\x7b\x7by\x7d\x7d".toList =
        [("x", some ("")), ("y", none)] :=
  ⟨by rfl, by rfl⟩

/-- C5 amended — for every text containing at least one unresolvable
placeholder name (no value in the mapping and no *non-empty* default),
substitution returns an error — not a partial success and not only the
first name — enumerating exactly the distinct unresolvable names, each
exactly once (`Nodup`), in sorted order, regardless of the order or
multiplicity of their occurrences (a sorted, duplicate-free list is
uniquely determined by its member set). -/
theorem c5_amended_missing_enumeration (content : List Char)
    (vars : List (String × String))
    (hne : ((occListF (content.length + 1) content).filter (unresolvable vars)).map
        Prod.fst ≠ []) :
    ∃ l, ReplacePlaceholders content vars = .error l
      ∧ l.Sorted (fun a b => strLe a b = true)
      ∧ l.Nodup
      ∧ (∀ n, n ∈ l ↔
          n ∈ ((occListF (content.length + 1) content).filter (unresolvable vars)).map
            Prod.fst) := by
  have hm := replaceScanF_missing vars (content.length + 1) content
  refine ⟨sortStrings ((replaceScanF vars (content.length + 1) content).2).dedup,
    ?_, ?_, ?_, ?_⟩
  · simp only [ReplacePlaceholders]
    rw [if_neg (by rw [hm]; exact hne)]
  · exact List.sorted_insertionSort _ _
  · exact ((List.perm_insertionSort _ _).nodup_iff).mpr
      (List.nodup_dedup _)
  · intro n
    rw [← hm]
    simp [sortStrings, List.mem_insertionSort, List.mem_dedup]

/-- C5 amended witness — `{{y}} and {{x}} and {{y}}` with no
variables: the error list is `["x", "y"]` — an error, both names, each
once, sorted, although `y` occurs first and twice. -/
theorem c5_amended_missing_enumeration_witness :
    ∃ l, ReplacePlaceholders ("\x7b\x7by\x7d\x7d and \x7b\x7bx\x7d\x7d and \x7b\x7by\x7d\x7d".toList) [] = .error l
      ∧ l.Sorted (fun a b => strLe a b = true)
      ∧ l.Nodup
      ∧ (∀ n, n ∈ l ↔
          n ∈ ((occListF ("\x7b\x7by\x7d\x7d and \x7b\x7bx\x7d\x7d and \x7b\x7by\x7d\x7d".toList.length + 1)
              "\x7b\x7by\x7d\x7d and \x7b\x7bx\x7d\x7d and \x7b\x7by\x7d\x7d".toList).filter (unresolvable [])).map
            Prod.fst) :=
  c5_amended_missing_enumeration ("\x7b\x7by\x7d\x7d and \x7b\x7bx\x7d\x7d and \x7b\x7by\x7d\x7d".toList) [] (by decide)

/-- If no position of the text matches the placeholder grammar, the
replacement pass emits the text unchanged and collects nothing. -/
theorem replaceScanF_no_match (vars : List (String × String)) :
    ∀ fuel s, s.length < fuel →
      (∀ i < s.length, parsePlaceholderAt (s.drop i) = none) →
      replaceScanF vars fuel s = (s, []) := by
  intro fuel
  induction fuel with
  | zero => intro s h _; exact absurd h (Nat.not_lt_zero _)
  | succ n ih =>
    intro s hlen hnone
    cases s with
    | nil => rfl
    | cons c rest =>
      have h0 : parsePlaceholderAt (c :: rest) = none := by
        simpa using hnone 0 (by simp)
      have hrest := ih rest (by simpa [Nat.succ_lt_succ_iff] using hlen)
        (fun i hi => by simpa using hnone (i + 1) (by simpa using Nat.succ_lt_succ hi))
      simp [replaceScanF, h0, hrest]

/-- C8 — a text with no occurrence of the placeholder grammar is
returned unchanged, successfully, for every variable mapping. -/
theorem c8_no_placeholder_identity (content : List Char) (vars : List (String × String))
    (h : ∀ i < content.length, parsePlaceholderAt (content.drop i) = none) :
    ReplacePlaceholders content vars = .ok content := by
  have hs := replaceScanF_no_match vars (content.length + 1) content (by omega) h
  simp [ReplacePlaceholders, hs]

/-- C8 witness — `hello {world}` (single braces do not match the
grammar) is returned unchanged under a non-empty mapping. -/
theorem c8_no_placeholder_identity_witness :
    ReplacePlaceholders ("hello \x7bworld\x7d".toList) [("x", "1")] =
      .ok ("hello \x7bworld\x7d".toList) :=
  c8_no_placeholder_identity ("hello \x7bworld\x7d".toList) [("x", "1")] (by decide)

/-- C9 — a placeholder whose name is bound in the mapping is replaced
by the mapped value — here `{{x|q}}` in `a{{x|q}}b` — for *every* bound
value `v`, including the empty string: the default `q` is ignored, the
name is not reported missing, and the call succeeds, because the branch
is chosen by key presence (`value, ok := variables[varName]`), not by
the value being non-empty. -/
theorem c9_present_name_wins (vars : List (String × String)) (v : String)
    (h : lookupVar vars ("x") = some v) :
    ReplacePlaceholders ("a\x7b\x7bx|q\x7d\x7db".toList) vars = .ok ('a' :: (v.toList ++ ['b'])) := by
  have p1 : parsePlaceholderAt ['a', '{', '{', 'x', '|', 'q', '}', '}', 'b'] = none := by rfl
  have p2 : parsePlaceholderAt ['{', '{', 'x', '|', 'q', '}', '}', 'b'] =
      some ("x", some ("q"), ['b']) := by rfl
  have p3 : parsePlaceholderAt ['b'] = none := by rfl
  simp [ReplacePlaceholders, replaceScanF, p1, p2, p3, h]

/-- C9 witness — the value bound to `x` is the empty string: the
result is `ab`, not the default `q`, and no error. -/
theorem c9_present_name_wins_witness :
    ReplacePlaceholders ("a\x7b\x7bx|q\x7d\x7db".toList) [("x", "")] = .ok ("ab".toList) :=
  c9_present_name_wins [("x", "")] "" (by rfl)

/-! ## Lemmas for the merge claims -/

theorem lookupVar_mapSet (k v : String) :
    ∀ (m : List (String × String)) (q : String),
      lookupVar (mapSet m k v) q = if q = k then some v else lookupVar m q := by
  intro m
  induction m with
  | nil => intro q; simp [mapSet, lookupVar]
  | cons kv rest ih =>
    intro q
    obtain ⟨k', v'⟩ := kv
    by_cases hk : k' = k
    · subst hk
      by_cases hq : q = k' <;> simp [mapSet, lookupVar, hq]
    · by_cases hq : q = k'
      · subst hq
        have : q ≠ k := hk
        simp [mapSet, lookupVar, hk, this]
      · simp [mapSet, lookupVar, hk, hq, ih]

theorem lookupVar_eq_none_of_not_mem :
    ∀ (m : List (String × String)) (k : String), k ∉ m.map Prod.fst →
      lookupVar m k = none := by
  intro m
  induction m with
  | nil => intro k _; rfl
  | cons kv rest ih =>
    intro k hk
    obtain ⟨k', v'⟩ := kv
    have h1 : k ≠ k' := fun he => hk (by simp [he])
    have h2 : k ∉ rest.map Prod.fst := fun he => hk (by simp [he])
    simp [lookupVar, h1, ih k h2]

/-- Folding one source's entries into an accumulator map: lookups favor
the source (its key set has no duplicates, as with a Go map), falling
back to the accumulator. -/
theorem lookupVar_foldl_src :
    ∀ (src m : List (String × String)) (k : String), (src.map Prod.fst).Nodup →
      lookupVar (src.foldl (fun r kv => mapSet r kv.1 kv.2) m) k =
        (match lookupVar src k with
         | some v => some v
         | none => lookupVar m k) := by
  intro src
  induction src with
  | nil => intro m k _; simp [lookupVar]
  | cons kv rest ih =>
    intro m k hnd
    obtain ⟨k0, v0⟩ := kv
    simp only [List.foldl_cons]
    have hnd' : (k0 :: rest.map Prod.fst).Nodup := hnd
    have hpair := List.nodup_cons.mp hnd'
    rw [ih (mapSet m k0 v0) k hpair.2]
    by_cases hq : k = k0
    · subst hq
      rw [lookupVar_eq_none_of_not_mem rest k hpair.1]
      simp [lookupVar, lookupVar_mapSet]
    · cases hr : lookupVar rest k <;> simp [lookupVar, hr, hq, lookupVar_mapSet]

theorem lookupVar_merge_fold :
    ∀ (sources : List (List (String × String))) (m : List (String × String)) (k : String),
      (∀ src ∈ sources, (src.map Prod.fst).Nodup) →
      lookupVar (sources.foldl
          (fun result src => src.foldl (fun r kv => mapSet r kv.1 kv.2) result) m) k =
        sources.foldl
          (fun acc src => match lookupVar src k with | some v => some v | none => acc)
          (lookupVar m k) := by
  intro sources
  induction sources with
  | nil => intro m k _; rfl
  | cons src ss ih =>
    intro m k hnd
    simp only [List.foldl_cons]
    rw [ih _ k (fun s hs => hnd s (List.mem_cons_of_mem _ hs))]
    rw [lookupVar_foldl_src src m k (hnd src (List.mem_cons_self _ _))]

theorem foldl_lastWin_none :
    ∀ (ss : List (List (String × String))) (init : Option String) (k : String),
      ss.foldl (fun acc src => match lookupVar src k with | some v => some v | none => acc)
          init = none ↔
        (init = none ∧ ∀ src ∈ ss, lookupVar src k = none) := by
  intro ss
  induction ss with
  | nil => intro init k; simp
  | cons s ss ih =>
    intro init k
    simp only [List.foldl_cons]
    rw [ih]
    cases h : lookupVar s k <;> simp [h, List.forall_mem_cons, and_left_comm, and_comm]

/-- C7 — merging an ordered list of mappings: the value of every key
in the result is the value from the *last* source binding that key
(first conjunct, with each source's key set duplicate-free as for a Go
map); hence a key is absent from the result iff it is absent from every
source — the key set is the union, and a later source lacking a key
never removes it (second conjunct); and concretely
`merge([{a:1,b:2},{b:3,c:4}]) = {a:1,b:3,c:4}` (third conjunct). -/
theorem c7_merge_last_source_wins :
    (∀ sources, (∀ src ∈ sources, (src.map Prod.fst).Nodup) →
       ∀ k, lookupVar (MergeVariables sources) k = lastWin sources k)
    ∧ (∀ sources, (∀ src ∈ sources, (src.map Prod.fst).Nodup) →
       ∀ k, (lookupVar (MergeVariables sources) k = none ↔
          ∀ src ∈ sources, lookupVar src k = none))
    ∧ MergeVariables [[("a", "1"), ("b", "2")], [("b", "3"), ("c", "4")]] =
        [("a", "1"), ("b", "3"), ("c", "4")] := by
  have hmain : ∀ sources, (∀ src ∈ sources, (src.map Prod.fst).Nodup) →
      ∀ k, lookupVar (MergeVariables sources) k = lastWin sources k := by
    intro sources hnd k
    unfold MergeVariables lastWin
    exact lookupVar_merge_fold sources [] k hnd
  refine ⟨hmain, ?_, by rfl⟩
  intro sources hnd k
  rw [hmain sources hnd k]
  unfold lastWin
  simpa using foldl_lastWin_none sources none k

/-- C7 witness — the general conjuncts instantiated on the concrete
sources of the example, at key `b` (bound in both sources) and key `z`
(bound in neither). -/
theorem c7_merge_last_source_wins_witness :
    lookupVar (MergeVariables [[("a", "1"), ("b", "2")], [("b", "3"), ("c", "4")]]) "b" =
      lastWin [[("a", "1"), ("b", "2")], [("b", "3"), ("c", "4")]] "b"
    ∧ (lookupVar (MergeVariables [[("a", "1"), ("b", "2")], [("b", "3"), ("c", "4")]]) "z" =
        none ↔
       ∀ src ∈ [[("a", "1"), ("b", "2")], [("b", "3"), ("c", "4")]],
         lookupVar src ("z") = none) :=
  ⟨c7_merge_last_source_wins.1 _ (by decide) "b",
   c7_merge_last_source_wins.2.1 _ (by decide) "z"⟩

/-- Copying one source's entries into the result reference `r` touches
only `r`: every other reference keeps its contents, and `r` accumulates
the entries by map writes. -/
theorem innerCopy_data (r : Nat) :
    ∀ (entries : List (String × String)) (acc : Store) (i : Nat),
      ((entries.foldl
          (fun acc2 kv => storeWrite acc2 r (mapSet (acc2.data r) kv.1 kv.2)) acc).data i) =
        if i = r then entries.foldl (fun m kv => mapSet m kv.1 kv.2) (acc.data r)
        else acc.data i := by
  intro entries
  induction entries with
  | nil => intro acc i; by_cases h : i = r <;> simp [h]
  | cons kv rest ih =>
    intro acc i
    simp only [List.foldl_cons]
    rw [ih]
    by_cases h : i = r <;> simp [storeWrite, h]

theorem innerCopy_next (r : Nat) :
    ∀ (entries : List (String × String)) (acc : Store),
      ((entries.foldl
          (fun acc2 kv => storeWrite acc2 r (mapSet (acc2.data r) kv.1 kv.2)) acc).next) =
        acc.next := by
  intro entries
  induction entries with
  | nil => intro acc; rfl
  | cons kv rest ih => intro acc; simp only [List.foldl_cons]; rw [ih]; rfl

/-- The source loop of the store-model merge: with all source references
valid (strictly below the fresh reference `r = st.next`), only `r` is
written, and its contents are the pure merge of the sources' contents. -/
theorem outerCopy_data (st : Store) :
    ∀ (srcs : List Nat) (acc : Store),
      (∀ i, i ≠ st.next → acc.data i = st.data i) →
      (∀ s ∈ srcs, s < st.next) →
      ∀ i, ((srcs.foldl
          (fun a src => (a.data src).foldl
            (fun acc2 kv => storeWrite acc2 st.next (mapSet (acc2.data st.next) kv.1 kv.2)) a)
          acc).data i) =
        if i = st.next then
          srcs.foldl
            (fun m s => (st.data s).foldl (fun m2 kv => mapSet m2 kv.1 kv.2) m)
            (acc.data st.next)
        else st.data i := by
  intro srcs
  induction srcs with
  | nil =>
    intro acc hframe _ i
    by_cases h : i = st.next <;> simp [h, hframe i, *]
  | cons s ss ih =>
    intro acc hframe hvalid i
    simp only [List.foldl_cons]
    have hs : acc.data s = st.data s :=
      hframe s (Nat.ne_of_lt (hvalid s (List.mem_cons_self _ _)))
    rw [ih _ ?_ (fun x hx => hvalid x (List.mem_cons_of_mem _ hx)) i]
    · rw [innerCopy_data st.next, if_pos rfl, hs]
    · intro j hj
      rw [innerCopy_data st.next, if_neg hj]
      exact hframe j hj

/-- C10 — `MergeVariables` on the store model: given valid source
references, the returned reference is the freshly allocated one
(`st.next`, not among the sources), every reference other than the fresh
one — in particular every source — holds exactly the contents it held
before the call, and the fresh reference holds the pure merge of the
sources' contents. -/
theorem c10_merge_fresh_and_frame (st : Store) (srcs : List Nat)
    (hvalid : ∀ s ∈ srcs, s < st.next) :
    (MergeVariablesStore srcs st).1 = st.next
    ∧ (∀ i, i ≠ st.next → ((MergeVariablesStore srcs st).2).data i = st.data i)
    ∧ (∀ s ∈ srcs, ((MergeVariablesStore srcs st).2).data s = st.data s)
    ∧ ((MergeVariablesStore srcs st).2).data st.next =
        MergeVariables (srcs.map st.data) := by
  have hkey : ∀ i, ((MergeVariablesStore srcs st).2).data i =
      if i = st.next then
        srcs.foldl (fun m s => (st.data s).foldl (fun m2 kv => mapSet m2 kv.1 kv.2) m) []
      else st.data i := by
    intro i
    unfold MergeVariablesStore
    rw [outerCopy_data st srcs _ (fun j hj => by simp [hj]) hvalid i]
    simp
  refine ⟨rfl, ?_, ?_, ?_⟩
  · intro i hi
    rw [hkey i, if_neg hi]
  · intro s hs
    rw [hkey s, if_neg (Nat.ne_of_lt (hvalid s hs))]
  · rw [hkey st.next, if_pos rfl]
    unfold MergeVariables
    rw [List.foldl_map]

/-- A two-reference store for the C10 witness: reference 0 holds
`{a:1}`, reference 1 holds `{b:2}`. -/
def c10Store : Store :=
  ⟨2, fun i => if i = 0 then [("a", "1")] else if i = 1 then [("b", "2")] else []⟩

/-- C10 witness — merging references 0 and 1 of `c10Store` returns
the fresh reference 2, leaves both sources' contents untouched, and
stores their pure merge at the fresh reference. -/
theorem c10_merge_fresh_and_frame_witness :
    (MergeVariablesStore [0, 1] c10Store).1 = 2
    ∧ ((MergeVariablesStore [0, 1] c10Store).2).data 0 = [("a", "1")]
    ∧ ((MergeVariablesStore [0, 1] c10Store).2).data 1 = [("b", "2")]
    ∧ ((MergeVariablesStore [0, 1] c10Store).2).data 2 =
        MergeVariables [[("a", "1")], [("b", "2")]] :=
  ⟨(c10_merge_fresh_and_frame c10Store [0, 1] (by decide)).1,
   (c10_merge_fresh_and_frame c10Store [0, 1] (by decide)).2.2.1 0 (by decide),
   (c10_merge_fresh_and_frame c10Store [0, 1] (by decide)).2.2.1 1 (by decide),
   (c10_merge_fresh_and_frame c10Store [0, 1] (by decide)).2.2.2⟩

end Air
